import Mathlib

set_option maxRecDepth 4000

/-!
# FreeQuantumRandomGenerator: shallow embedding and verification

Shallow embedding of the entropy-queue / consumption-engine core of the
FreeQuantumRandomGenerator repository:

* `pixel_processor.py` — `PixelProcessor.get_hotbits` (the encode step);
* `hotbit_storage.py` — `HotBitStorage.save_to_file` / `count_sets`;
* `quantum_random.py` — `QuantumRandom.__init__`, `load_next_file`,
  `getrandbits`, `randrange`, `randint`, `choice`, `choices`, `sample`;
* `capture_hotbits.py` — the producer main loop (backpressure policy).

Python strings of `'0'`/`'1'` characters are modelled as `List Bool`
(most-significant bit first).  The storage directory is modelled as the
list of not-yet-deleted entropy sets (each a decoded `integerList`); the
`python_random.choice` call used to pick a file is modelled by an oracle
stream of indices carried in the state.  Python exceptions are modelled
with `Except`:  the `ValueError("No HotBits available...")` raised by
`load_next_file` is `QErr.poolExhausted`, the `ValueError` raised by
`int('', 2)` is `QErr.valueError`.  While-loops that may genuinely
diverge (the rejection-sampling loops) take an explicit fuel argument
and report `QErr.outOfFuel` when it runs out.
-/

namespace FQRG

/-- Errors of the embedded program.  `poolExhausted` is the
`ValueError("No HotBits available. Generate more quantum random bits.")`
raised by `load_next_file`; `valueError` is the `ValueError` raised by
Python's `int('', 2)` on an empty slice; `indexError` models an
out-of-bounds sequence index; `outOfFuel` is not a program outcome at
all but the marker that an explicitly fuelled loop ran out of fuel. -/
inductive QErr where
  | poolExhausted
  | valueError
  | indexError
  | outOfFuel
deriving DecidableEq

/-- One step of reading a binary numeral left to right. -/
def bitStep (a : Nat) (b : Bool) : Nat :=
  2 * a + (if b then 1 else 0)

/-- Value of a most-significant-bit-first bit string, as computed by
Python's `int(s, 2)` on a nonempty string of `'0'`/`'1'` characters. -/
def bitsToNat (l : List Bool) : Nat :=
  l.foldl bitStep 0

/-- Python's `int(s, 2)`: fails on the empty string (raising
`ValueError`), otherwise returns the binary value. -/
def parseBin (l : List Bool) : Option Nat :=
  if l = [] then none else some (bitsToNat l)

/-- Least-significant-bit-first binary digits of `n`, with explicit fuel
(`fuel ≥ n` is always enough).  Digit list of `0` is empty, matching the
recursion `bin(n) = bin(n // 2) ++ [n % 2]`. -/
def lsbBitsAux : Nat → Nat → List Bool
  | 0, _ => []
  | _ + 1, 0 => []
  | f + 1, n + 1 => (if (n + 1) % 2 = 1 then true else false) :: lsbBitsAux f ((n + 1) / 2)

/-- Python's `format(n, 'b')` (msb-first, no padding): `"0"` for zero,
otherwise the minimal binary representation. -/
def natBin (n : Nat) : List Bool :=
  if n = 0 then [false] else (lsbBitsAux n n).reverse

/-- Python's `format(n, '024b')`: the binary representation of `n`,
left-padded with `'0'` up to width 24 (longer if `n ≥ 2^24`). -/
def format24 (n : Nat) : List Bool :=
  List.replicate (24 - (natBin n).length) false ++ natBin n

/-- The decode loop of `load_next_file`:
`for integer in integers: self.current_bits += format(integer, '024b')`,
starting from the current buffer `cur`. -/
def loadBits (cur : List Bool) (ints : List Nat) : List Bool :=
  ints.foldl (fun acc i => acc ++ format24 i) cur

/-- `decode`: the bit string contributed by one entropy set (the decode
loop run on an empty buffer). -/
def decodeSet (ints : List Nat) : List Bool :=
  loadBits [] ints

/-- Number of binary digits of `n` (`0` for `n = 0`), with explicit fuel
(`fuel ≥ n` is always enough). -/
def bitLenAux : Nat → Nat → Nat
  | 0, _ => 0
  | _ + 1, 0 => 0
  | f + 1, n + 1 => bitLenAux f ((n + 1) / 2) + 1

/-- Python's `int.bit_length` on a natural number. -/
def bitLength (n : Nat) : Nat :=
  bitLenAux n n

/-- Python's `int.bit_length` on an arbitrary integer: Python computes
the bit length of the absolute value. -/
def pyBitLengthInt (i : Int) : Nat :=
  bitLength i.natAbs

/-- `PixelProcessor.get_hotbits` chunk loop, fuelled (one fuel per
extracted chunk; `fuel ≥ bits.length` is always enough):
`while len(self.bits) >= chunk_size:` take 24 bits, convert with
`int(chunk, 2)`, keep the value only `if integer != 0`. -/
def getHotbitsAux : Nat → List Bool → List Nat
  | 0, _ => []
  | f + 1, bits =>
    if 24 ≤ bits.length then
      if bitsToNat (bits.take 24) ≠ 0 then
        bitsToNat (bits.take 24) :: getHotbitsAux f (bits.drop 24)
      else
        getHotbitsAux f (bits.drop 24)
    else []

/-- `encode`: the integer list returned by
`PixelProcessor.get_hotbits(chunk_size=24)` on bit string `bits`. -/
def get_hotbits (bits : List Bool) : List Nat :=
  getHotbitsAux bits.length bits

/-- The residue `get_hotbits` leaves in `self.bits`: the loop drops 24
bits per iteration until fewer than 24 remain. -/
def hotbitsRestAux : Nat → List Bool → List Bool
  | 0, bits => bits
  | f + 1, bits => if 24 ≤ bits.length then hotbitsRestAux f (bits.drop 24) else bits

/-- The final value of `self.bits` after `get_hotbits` runs. -/
def hotbitsRest (bits : List Bool) : List Bool :=
  hotbitsRestAux bits.length bits

/-- State of a `QuantumRandom` instance together with its storage
directory.  `queue` is the list of persisted, not-yet-deleted entropy
sets (each the `integerList` of one JSON file); `bits` is
`self.current_bits`; `picks` is the oracle stream of indices consumed by
`python_random.choice(files)`, reduced modulo the number of files. -/
structure QR where
  queue : List (List Nat)
  bits : List Bool
  picks : List Nat

/-- `HotBitStorage.count_sets`: the number of persisted `.json` sets. -/
def count_sets (queue : List (List Nat)) : Nat :=
  queue.length

/-- `HotBitStorage.save_to_file`: persists one new entropy set under a
fresh name (a new element of the directory). -/
def save_to_file (queue : List (List Nat)) (hotbits : List Nat) : List (List Nat) :=
  queue ++ [hotbits]

/-- `QuantumRandom.load_next_file`: if the directory holds no `.json`
files, raise `ValueError` (pool exhausted); otherwise pick one file
(`python_random.choice`, modelled by the next oracle index mod the file
count), append its decoded bits to `current_bits`, and delete the file
(`os.remove`) before returning. -/
def load_next_file (s : QR) : Except QErr QR :=
  if s.queue = [] then
    .error .poolExhausted
  else
    .ok { queue := s.queue.eraseIdx (s.picks.headD 0 % s.queue.length)
          bits := loadBits s.bits (s.queue.getD (s.picks.headD 0 % s.queue.length) [])
          picks := s.picks.tail }

/-- `QuantumRandom.__init__(storage_directory)`: sets `current_bits` to
the empty string then immediately calls `load_next_file`. -/
def mkQuantumRandom (queue : List (List Nat)) (picks : List Nat) : Except QErr QR :=
  load_next_file { queue := queue, bits := [], picks := picks }

/-- The `while len(self.current_bits) < k: self.load_next_file()` loop
of `getrandbits`, fuelled (each iteration deletes one file, so
`fuel ≥ queue.length + 1` is always enough; `getrandbits` supplies it). -/
def fillAux : Nat → Nat → QR → Except QErr QR
  | 0, _, _ => .error .outOfFuel
  | f + 1, k, s =>
    if s.bits.length < k then
      match load_next_file s with
      | .error e => .error e
      | .ok s' => fillAux f k s'
    else .ok s

/-- `QuantumRandom.getrandbits(k)`: refill the buffer until it holds at
least `k` bits, slice off the first `k`, reassign the rest, and return
`int(result_bits, 2)` — which raises `ValueError` when the slice is
empty (`k = 0`). -/
def getrandbits (k : Nat) (s : QR) : Except QErr (Nat × QR) :=
  match fillAux (s.queue.length + 1) k s with
  | .error e => .error e
  | .ok s' =>
    match parseBin (s'.bits.take k) with
    | none => .error .valueError
    | some n => .ok (n, { s' with bits := s'.bits.drop k })

/-- The `while True` rejection loop of `QuantumRandom.randrange`:
draw `getrandbits((range_size - 1).bit_length())`, accept when the draw
is `< range_size`, and return `start + rand_num * step`. -/
def randrangeLoop : Nat → Int → Int → Int → QR → Except QErr (Int × QR)
  | 0, _, _, _, _ => .error .outOfFuel
  | fuel + 1, size, start, step, s =>
    match getrandbits (pyBitLengthInt (size - 1)) s with
    | .error e => .error e
    | .ok (r, s') =>
      if (r : Int) < size then .ok (start + (r : Int) * step, s')
      else randrangeLoop fuel size start step s'

/-- `QuantumRandom.randrange(start, stop, step)` (with `stop` given):
`range_size = (stop - start) // step` (Python floor division), then the
rejection loop. -/
def randrange (fuel : Nat) (start stop step : Int) (s : QR) : Except QErr (Int × QR) :=
  randrangeLoop fuel (Int.fdiv (stop - start) step) start step s

/-- The `while True` rejection loop of `QuantumRandom.randint`: draw
`getrandbits(k)`, accept when `a <= rand_num <= b`, and return
`rand_num` itself. -/
def randintLoop : Nat → Int → Int → Nat → QR → Except QErr (Int × QR)
  | 0, _, _, _, _ => .error .outOfFuel
  | fuel + 1, a, b, k, s =>
    match getrandbits k s with
    | .error e => .error e
    | .ok (r, s') =>
      if a ≤ (r : Int) ∧ (r : Int) ≤ b then .ok ((r : Int), s')
      else randintLoop fuel a b k s'

/-- `QuantumRandom.randint(a, b)`: `range_size = b - a + 1`,
`max_power_of_two = 2 ** (range_size.bit_length() - 1)`, then the
rejection loop drawing `getrandbits(max_power_of_two.bit_length())`. -/
def randint (fuel : Nat) (a b : Int) (s : QR) : Except QErr (Int × QR) :=
  randintLoop fuel a b
    (pyBitLengthInt ((2 : Int) ^ (pyBitLengthInt (b - a + 1) - 1))) s

/-- `QuantumRandom.choice(seq)`: `seq[self.randint(0, len(seq) - 1)]`. -/
def choice {α : Type} (fuel : Nat) (seq : List α) (s : QR) : Except QErr (α × QR) :=
  match randint fuel 0 ((seq.length : Int) - 1) s with
  | .error e => .error e
  | .ok (r, s') =>
    match seq.get? r.toNat with
    | some x => .ok (x, s')
    | none => .error .indexError

/-- `QuantumRandom.choices(seq, k)`:
`[self.choice(seq) for _ in range(k)]`, left to right. -/
def choices {α : Type} (fuel : Nat) (seq : List α) (k : Nat) (s : QR) :
    Except QErr (List α × QR) :=
  match k with
  | 0 => .ok ([], s)
  | k + 1 =>
    match choice fuel seq s with
    | .error e => .error e
    | .ok (x, s') =>
      match choices fuel seq k s' with
      | .error e => .error e
      | .ok (xs, s'') => .ok (x :: xs, s'')

/-- Indexing a sequence at a list of positions, failing on any
out-of-range position (`seq[i]` for each `i`). -/
def indexAll {α : Type} (seq : List α) (idxs : List Nat) : Option (List α) :=
  idxs.mapM (fun i => seq.get? i)

/-- `QuantumRandom.sample(seq, k)`:
`[seq[i] for i in sorted(self.choices(range(len(seq)), k))]`. -/
def sample {α : Type} (fuel : Nat) (seq : List α) (k : Nat) (s : QR) :
    Except QErr (List α × QR) :=
  match choices fuel (List.range seq.length) k s with
  | .error e => .error e
  | .ok (idxs, s') =>
    match indexAll seq (List.insertionSort (fun i j => i ≤ j) idxs) with
    | some xs => .ok (xs, s')
    | none => .error .indexError

/-- Producer state for the `capture_hotbits.main` loop: `queue` is the
storage directory (shared with the consumer), `bits` is
`processor.bits`, `maxSets` is `args.max_sets`. -/
structure Producer where
  queue : List (List Nat)
  bits : List Bool
  maxSets : Nat

/-- Observable action of one producer iteration: either one pass of the
backpressure wait loop (`time.sleep(10)`) or one frame of work, which
may persist a set (`saved = true`) or merely accumulate bits. -/
inductive ProdAct where
  | sleep (seconds : Nat)
  | work (saved : Bool)

/-- One iteration of the `capture_hotbits.main` `while True` loop, with
the webcam frame abstracted into the bit string `newBits` its sampled
least-significant bits contribute:
`while storage.count_sets() >= args.max_sets: time.sleep(10)` — one pass
of this wait loop is a `sleep 10` step that leaves everything unchanged;
otherwise capture/process a frame, and
`if len(processor.bits) >= 24 * 100:` convert with `get_hotbits` and
`save_to_file` the result. -/
def producer_step (p : Producer) (newBits : List Bool) : ProdAct × Producer :=
  if p.maxSets ≤ count_sets p.queue then
    (ProdAct.sleep 10, p)
  else
    if 24 * 100 ≤ (p.bits ++ newBits).length then
      (ProdAct.work true,
        { p with queue := save_to_file p.queue (get_hotbits (p.bits ++ newBits))
                 bits := hotbitsRest (p.bits ++ newBits) })
    else
      (ProdAct.work false, { p with bits := p.bits ++ newBits })

/-- The spec's description of `decode ∘ encode`: walk the bit string in
24-bit chunks, drop every all-zero chunk, keep every other chunk, and
drop the trailing partial chunk.  Written from the spec's words, for
comparison with the composition of the source's `get_hotbits` and
decode loop. -/
def removeZeroChunksAux : Nat → List Bool → List Bool
  | 0, _ => []
  | f + 1, bits =>
    if 24 ≤ bits.length then
      (if ∀ b ∈ bits.take 24, b = false then [] else bits.take 24) ++
        removeZeroChunksAux f (bits.drop 24)
    else []

/-- Spec-side chunk filter (`fuel := bits.length` is always enough). -/
def removeZeroChunks (bits : List Bool) : List Bool :=
  removeZeroChunksAux bits.length bits

/-! ## Binary-numeral arithmetic -/

theorem bitsFold_acc (l : List Bool) :
    ∀ a : Nat, l.foldl bitStep a = a * 2 ^ l.length + l.foldl bitStep 0 := by
  induction l with
  | nil => intro a; simp
  | cons b l ih =>
    intro a
    rw [List.foldl_cons, List.foldl_cons, ih (bitStep a b), ih (bitStep 0 b)]
    simp only [bitStep, List.length_cons, pow_succ]
    ring

theorem bitsToNat_cons (b : Bool) (l : List Bool) :
    bitsToNat (b :: l) = (if b then 1 else 0) * 2 ^ l.length + bitsToNat l := by
  unfold bitsToNat
  rw [List.foldl_cons, bitsFold_acc]
  simp [bitStep]

theorem bitsToNat_singleton (b : Bool) :
    bitsToNat [b] = if b then 1 else 0 := by
  cases b <;> rfl

theorem bitsToNat_lt (l : List Bool) : bitsToNat l < 2 ^ l.length := by
  induction l with
  | nil => simp [bitsToNat]
  | cons b l ih =>
    rw [bitsToNat_cons, List.length_cons, pow_succ]
    have h2 : (if b then (1 : Nat) else 0) * 2 ^ l.length ≤ 2 ^ l.length := by
      cases b <;> simp
    omega

theorem bitsToNat_append (l m : List Bool) :
    bitsToNat (l ++ m) = bitsToNat l * 2 ^ m.length + bitsToNat m := by
  unfold bitsToNat
  rw [List.foldl_append, bitsFold_acc]

theorem bitsToNat_replicate_false (k : Nat) :
    bitsToNat (List.replicate k false) = 0 := by
  induction k with
  | zero => rfl
  | succ k ih => rw [List.replicate_succ, bitsToNat_cons]; simp [ih]

theorem bitsToNat_eq_zero_iff (l : List Bool) :
    bitsToNat l = 0 ↔ ∀ b ∈ l, b = false := by
  induction l with
  | nil => simp [bitsToNat]
  | cons b l ih =>
    rw [bitsToNat_cons]
    have hp : 0 < (2 : Nat) ^ l.length := Nat.pos_pow_of_pos _ (by omega)
    cases b
    · simp [ih]
    · have hne : 2 ^ l.length + bitsToNat l ≠ 0 := by omega
      simp only [List.mem_cons]
      constructor
      · intro h
        simp at h
      · intro h
        exact absurd (h true (Or.inl rfl)) (by simp)

theorem bitsToNat_inj : ∀ l m : List Bool,
    l.length = m.length → bitsToNat l = bitsToNat m → l = m
  | [], [], _, _ => rfl
  | [], _ :: _, h, _ => by simp at h
  | _ :: _, [], h, _ => by simp at h
  | b :: l, c :: m, h, hv => by
    have hlen : l.length = m.length := by simpa using h
    have h1 : bitsToNat l < 2 ^ m.length := hlen ▸ bitsToNat_lt l
    have h2 : bitsToNat m < 2 ^ m.length := bitsToNat_lt m
    rw [bitsToNat_cons, bitsToNat_cons, hlen] at hv
    have hbc : b = c ∧ bitsToNat l = bitsToNat m := by
      cases b <;> cases c <;> simp at hv ⊢ <;> omega
    rw [hbc.1, bitsToNat_inj l m hlen hbc.2]

theorem lsbBitsAux_val : ∀ f n : Nat, n ≤ f →
    bitsToNat (lsbBitsAux f n).reverse = n := by
  intro f
  induction f with
  | zero =>
    intro n hn
    interval_cases n
    rfl
  | succ f ih =>
    intro n hn
    match n with
    | 0 => rfl
    | m + 1 =>
      rw [lsbBitsAux, List.reverse_cons, bitsToNat_append,
        ih ((m + 1) / 2) (by omega)]
      have hmod : (m + 1) % 2 = 0 ∨ (m + 1) % 2 = 1 := by omega
      rcases hmod with hmod | hmod
      · simp only [hmod, bitsToNat_singleton]
        simp only [Nat.zero_ne_one, if_false, Bool.false_eq_true, if_neg,
          List.length_singleton, pow_one]
        simp
        omega
      · simp only [hmod, bitsToNat_singleton]
        simp
        omega

theorem bitsToNat_natBin (n : Nat) : bitsToNat (natBin n) = n := by
  unfold natBin
  by_cases hn : n = 0
  · simp [hn, bitsToNat_singleton]
  · rw [if_neg hn, lsbBitsAux_val n n le_rfl]

theorem lsbBitsAux_len : ∀ f n w : Nat, n < 2 ^ w →
    (lsbBitsAux f n).length ≤ w := by
  intro f
  induction f with
  | zero => intro n w _; simp [lsbBitsAux]
  | succ f ih =>
    intro n w hw
    match n with
    | 0 => simp [lsbBitsAux]
    | m + 1 =>
      match w with
      | 0 => simp at hw
      | w + 1 =>
        rw [lsbBitsAux, List.length_cons]
        have hdiv : (m + 1) / 2 < 2 ^ w := by
          rw [Nat.div_lt_iff_lt_mul (by omega : 0 < 2)]
          rw [pow_succ] at hw
          omega
        have := ih ((m + 1) / 2) w hdiv
        omega

theorem natBin_length_le (n w : Nat) (hw : 0 < w) (hn : n < 2 ^ w) :
    (natBin n).length ≤ w := by
  unfold natBin
  by_cases h0 : n = 0
  · simpa [h0] using hw
  · rw [if_neg h0, List.length_reverse]
    exact lsbBitsAux_len n n w hn

theorem format24_length (n : Nat) (hn : n < 2 ^ 24) :
    (format24 n).length = 24 := by
  have hle : (natBin n).length ≤ 24 := natBin_length_le n 24 (by omega) hn
  unfold format24
  rw [List.length_append, List.length_replicate]
  omega

theorem format24_val (n : Nat) : bitsToNat (format24 n) = n := by
  unfold format24
  rw [bitsToNat_append, bitsToNat_replicate_false, bitsToNat_natBin]
  ring

theorem format24_bitsToNat (c : List Bool) (hc : c.length = 24) :
    format24 (bitsToNat c) = c := by
  have hlt : bitsToNat c < 2 ^ 24 := hc ▸ bitsToNat_lt c
  refine bitsToNat_inj _ _ ?_ ?_
  · rw [format24_length _ hlt, hc]
  · rw [format24_val]

/-! ## The decode loop -/

theorem loadBits_nil (cur : List Bool) : loadBits cur [] = cur := rfl

theorem loadBits_cons (cur : List Bool) (n : Nat) (l : List Nat) :
    loadBits cur (n :: l) = loadBits (cur ++ format24 n) l := rfl

theorem loadBits_eq_append : ∀ (ints : List Nat) (cur : List Bool),
    loadBits cur ints = cur ++ decodeSet ints := by
  intro ints
  induction ints with
  | nil => intro cur; simp [loadBits, decodeSet]
  | cons n l ih =>
    intro cur
    have h1 : decodeSet (n :: l) = format24 n ++ decodeSet l := by
      rw [decodeSet, loadBits_cons, List.nil_append, ih (format24 n)]
    rw [loadBits_cons, ih, h1, List.append_assoc]

theorem decodeSet_cons (n : Nat) (l : List Nat) :
    decodeSet (n :: l) = format24 n ++ decodeSet l := by
  rw [decodeSet, loadBits_cons, loadBits_eq_append]
  simp

/-! ## decode ∘ encode -/

theorem decode_encode_aux : ∀ f g (bits : List Bool), bits.length ≤ f → bits.length ≤ g →
    decodeSet (getHotbitsAux f bits) = removeZeroChunksAux g bits := by
  intro f
  induction f with
  | zero =>
    intro g bits hf _
    have hb : bits = [] := List.length_eq_zero.mp (by omega)
    subst hb
    cases g <;> simp [getHotbitsAux, removeZeroChunksAux, decodeSet, loadBits]
  | succ f ih =>
    intro g bits hf hg
    match g with
    | 0 =>
      have hb : bits = [] := List.length_eq_zero.mp (by omega)
      subst hb
      simp [getHotbitsAux, removeZeroChunksAux, decodeSet, loadBits]
    | g + 1 =>
      by_cases h24 : 24 ≤ bits.length
      · have hlen : (bits.drop 24).length ≤ f := by
          rw [List.length_drop]; omega
        have hleng : (bits.drop 24).length ≤ g := by
          rw [List.length_drop]; omega
        have htake : (bits.take 24).length = 24 := by
          rw [List.length_take]; omega
        by_cases hz : bitsToNat (bits.take 24) = 0
        · have hall : ∀ b ∈ bits.take 24, b = false := (bitsToNat_eq_zero_iff _).mp hz
          rw [getHotbitsAux, if_pos h24, if_neg (not_not_intro hz),
            removeZeroChunksAux, if_pos h24, if_pos hall, List.nil_append]
          exact ih g (bits.drop 24) hlen hleng
        · have hnall : ¬ ∀ b ∈ bits.take 24, b = false := fun h =>
            hz ((bitsToNat_eq_zero_iff _).mpr h)
          rw [getHotbitsAux, if_pos h24, if_pos hz, decodeSet_cons,
            format24_bitsToNat _ htake,
            removeZeroChunksAux, if_pos h24, if_neg hnall,
            ih g (bits.drop 24) hlen hleng]
      · rw [getHotbitsAux, if_neg h24, removeZeroChunksAux, if_neg h24]
        simp [decodeSet, loadBits]

/-! ## Entropy-queue lemmas -/

theorem load_next_file_empty (s : QR) (h : s.queue = []) :
    load_next_file s = .error .poolExhausted := by
  rw [load_next_file, if_pos h]

theorem load_next_file_ok (s : QR) (h : s.queue ≠ []) :
    load_next_file s =
      .ok { queue := s.queue.eraseIdx (s.picks.headD 0 % s.queue.length)
            bits := s.bits ++ decodeSet (s.queue.getD (s.picks.headD 0 % s.queue.length) [])
            picks := s.picks.tail } := by
  rw [load_next_file, if_neg h, loadBits_eq_append]

theorem load_next_file_error_iff (s : QR) :
    load_next_file s = .error .poolExhausted ↔ s.queue = [] := by
  constructor
  · intro h
    by_contra hq
    rw [load_next_file_ok s hq] at h
    exact Except.noConfusion h
  · exact load_next_file_empty s

/-! ## Claim theorems -/

/-- C1: `take_random` (`load_next_file`) fails with `PoolExhausted` if and
only if the queue holds zero sets; on a nonempty queue it returns one
persisted set decoded and appended to the buffer, with that set's file
removed from the queue before returning; and after it returns the
contents of the only set in the queue, a second call fails with
`PoolExhausted` — the same set is never returned twice. -/
theorem take_random_exhaustion_and_single_use (s : QR) :
    (load_next_file s = .error .poolExhausted ↔ s.queue = []) ∧
    (s.queue ≠ [] →
      load_next_file s =
        .ok { queue := s.queue.eraseIdx (s.picks.headD 0 % s.queue.length)
              bits := s.bits ++ decodeSet (s.queue.getD (s.picks.headD 0 % s.queue.length) [])
              picks := s.picks.tail }) ∧
    (∀ e, s.queue = [e] →
      ∃ s', load_next_file s = .ok s' ∧ s'.bits = s.bits ++ decodeSet e ∧ s'.queue = [] ∧
        load_next_file s' = .error .poolExhausted) := by
  refine ⟨load_next_file_error_iff s, fun h => load_next_file_ok s h, ?_⟩
  intro e he
  have hne : s.queue ≠ [] := by rw [he]; simp
  refine ⟨_, load_next_file_ok s hne, ?_, ?_, ?_⟩
  · simp [he, Nat.mod_one]
  · simp [he, Nat.mod_one, List.eraseIdx]
  · apply load_next_file_empty
    simp [he, Nat.mod_one, List.eraseIdx]

/-- C1 witness: the singleton queue `[[5]]`. -/
theorem take_random_exhaustion_and_single_use_witness :
    (load_next_file { queue := [[5]], bits := [], picks := [7] } =
      .ok { queue := ([[5]] : List (List Nat)).eraseIdx ([7].headD 0 % [[5]].length)
            bits := ([] : List Bool) ++ decodeSet ([[5]].getD ([7].headD 0 % [[5]].length) [])
            picks := [7].tail }) ∧
    (∃ s', load_next_file { queue := [[5]], bits := [], picks := [7] } = .ok s' ∧
      s'.bits = ([] : List Bool) ++ decodeSet [5] ∧ s'.queue = [] ∧
      load_next_file s' = .error .poolExhausted) := by
  constructor
  · exact (take_random_exhaustion_and_single_use _).2.1 (by simp)
  · exact (take_random_exhaustion_and_single_use _).2.2 [5] rfl

/-- C2: the decode step (`format(i, '024b')` concatenation) applied to the
encode step (`get_hotbits`' 24-bit chunk-and-filter) reproduces the input
bit string with every all-zero 24-bit chunk removed and any trailing
partial chunk dropped; surviving chunks appear in original order, none
added, reordered, or duplicated. -/
theorem decode_encode_removes_zero_chunks (bits : List Bool) :
    decodeSet (get_hotbits bits) = removeZeroChunks bits :=
  decode_encode_aux bits.length bits.length bits le_rfl le_rfl

/-- C3: with the queue holding exactly the set `{integerList: [5, 10]}`,
the decoded bit string is the 24-bit binary of 5 followed by the 24-bit
binary of 10 (48 bits in total); two successive `extract(24)` calls
return 5 then 10, and a following `extract(1)` fails with
`PoolExhausted`. -/
theorem single_set_five_ten_scenario :
    mkQuantumRandom [[5, 10]] [] = .ok { queue := [], bits := decodeSet [5, 10], picks := [] } ∧
    decodeSet [5, 10] = format24 5 ++ format24 10 ∧
    (decodeSet [5, 10]).length = 48 ∧
    bitsToNat (format24 5) = 5 ∧ (format24 5).length = 24 ∧
    bitsToNat (format24 10) = 10 ∧ (format24 10).length = 24 ∧
    getrandbits 24 { queue := [], bits := decodeSet [5, 10], picks := [] } =
      .ok (5, { queue := [], bits := format24 10, picks := [] }) ∧
    getrandbits 24 { queue := [], bits := format24 10, picks := [] } =
      .ok (10, { queue := [], bits := [], picks := [] }) ∧
    getrandbits 1 { queue := [], bits := [], picks := [] } = .error .poolExhausted :=
  ⟨rfl, rfl, rfl, rfl, rfl, rfl, rfl, rfl, rfl, rfl⟩

/-- C4 (code bug): `extract(0)` performs no refill (the loop guard
`len(current_bits) < 0` never holds) and the slice leaves the buffer
unchanged, but instead of returning 0, `int('', 2)` on the empty slice
raises `ValueError`, whatever the state. -/
theorem extract_zero_raises_value_error (s : QR) :
    getrandbits 0 s = .error .valueError := by
  have hfill : fillAux (s.queue.length + 1) 0 s = .ok s := by
    rw [fillAux, if_neg (by omega)]
  rw [getrandbits, hfill]
  simp [parseBin]

/-- C5 (code bug): `randint(5, 5)` cannot return 5: each attempt draws
`getrandbits(1) ∈ {0, 1}` and the acceptance test `5 <= r <= 5` never
holds, so the rejection loop consumes the whole pool and fails with
`PoolExhausted` — here on a pool holding two bits and an empty queue. -/
theorem randint_equal_bounds_exhausts_pool :
    randint 10 5 5 { queue := [], bits := [true, false], picks := [] } =
      .error .poolExhausted := rfl

/-- C6: `randint(0, 7)` follows the documented arithmetic: `size = 8`,
`p = 2^(bitlen(8) - 1) = 8`, every attempt draws
`extract(bitlen(p)) = extract(4)` bits; the first draw lying in `[0, 7]`
is accepted and returned as is, and a draw above 7 is rejected, the loop
retrying on the advanced state. -/
theorem randint_zero_seven_bitwidth (fuel : Nat) (s : QR) :
    ((7 : Int) - 0 + 1 = 8) ∧
    (pyBitLengthInt 8 = 4) ∧
    ((2 : Int) ^ (pyBitLengthInt ((7 : Int) - 0 + 1) - 1) = 8) ∧
    (randint fuel 0 7 s = randintLoop fuel 0 7 4 s) ∧
    (∀ (r : Nat) (s' : QR), getrandbits 4 s = .ok (r, s') → (r : Int) ≤ 7 →
      randintLoop (fuel + 1) 0 7 4 s = .ok ((r : Int), s')) ∧
    (∀ (r : Nat) (s' : QR), getrandbits 4 s = .ok (r, s') → 7 < (r : Int) →
      randintLoop (fuel + 1) 0 7 4 s = randintLoop fuel 0 7 4 s') := by
  refine ⟨rfl, rfl, rfl, rfl, ?_, ?_⟩
  · intro r s' hdraw hle
    have h0 : (0 : Int) ≤ (r : Int) := by omega
    simp only [randintLoop, hdraw]
    rw [if_pos ⟨h0, hle⟩]
  · intro r s' hdraw hgt
    simp only [randintLoop, hdraw]
    rw [if_neg (by omega)]

/-- C6 witness: a low draw (`0`, accepted) and a high draw (`15`,
rejected), each from a 4-bit extraction. -/
theorem randint_zero_seven_bitwidth_witness :
    randintLoop 1 0 7 4 { queue := [], bits := format24 5, picks := [] } =
      .ok ((0 : Int), { queue := [], bits := (format24 5).drop 4, picks := [] }) ∧
    randintLoop 1 0 7 4 { queue := [], bits := List.replicate 24 true, picks := [] } =
      randintLoop 0 0 7 4 { queue := [], bits := (List.replicate 24 true).drop 4, picks := [] } := by
  constructor
  · exact (randint_zero_seven_bitwidth 0 _).2.2.2.2.1 0 _ rfl (by decide)
  · exact (randint_zero_seven_bitwidth 0 _).2.2.2.2.2 15 _ rfl (by decide)

/-- C7 (code bug): for `(stop - start) // step = 1` the loop's draw width
is `bitlen(0) = 0`, and the zero-bit extraction raises `ValueError`
instead of returning `start` — here `randrange(0, 1, 1)` on a
well-stocked pool. -/
theorem randrange_size_one_raises_value_error :
    randrange 5 0 1 1 { queue := [[5]], bits := decodeSet [5], picks := [] } =
      .error .valueError := rfl

/-- C8: one iteration of the producer loop with capacity `maxSets`: at or
above capacity it emits exactly a `sleep 10` step leaving the state
untouched (no error, no dropped data); below capacity it performs a work
step; and any step that grows the queue started below capacity — a new
set is never persisted while `size() >= C`. -/
theorem producer_backpressure (p : Producer) (newBits : List Bool) :
    (p.maxSets ≤ count_sets p.queue → producer_step p newBits = (ProdAct.sleep 10, p)) ∧
    (count_sets p.queue < p.maxSets →
      ∃ saved p', producer_step p newBits = (ProdAct.work saved, p')) ∧
    (∀ a p', producer_step p newBits = (a, p') →
      count_sets p.queue < count_sets p'.queue → count_sets p.queue < p.maxSets) := by
  refine ⟨?_, ?_, ?_⟩
  · intro h
    rw [producer_step, if_pos h]
  · intro h
    rw [producer_step, if_neg (by omega)]
    by_cases hb : 24 * 100 ≤ (p.bits ++ newBits).length
    · exact ⟨true, _, by rw [if_pos hb]⟩
    · exact ⟨false, _, by rw [if_neg hb]⟩
  · intro a p' hstep hgrow
    by_contra hge
    rw [producer_step, if_pos (by omega)] at hstep
    injection hstep with h1 h2
    rw [← h2] at hgrow
    omega

/-- C8 witness: capacity 2 with 2 sets enqueued suspends; capacity 2 with
1 set works; a step that persists a set (2400 accumulated bits) started
below capacity. -/
theorem producer_backpressure_witness :
    producer_step { queue := [[1], [2]], bits := [], maxSets := 2 } [] =
      (ProdAct.sleep 10, { queue := [[1], [2]], bits := [], maxSets := 2 }) ∧
    (∃ saved p', producer_step { queue := [[1]], bits := [], maxSets := 2 } [] =
      (ProdAct.work saved, p')) ∧
    count_sets ([] : List (List Nat)) < 2 := by
  refine ⟨?_, ?_, ?_⟩
  · exact (producer_backpressure _ _).1 (by decide)
  · exact (producer_backpressure _ _).2.1 (by decide)
  · have hstep : producer_step { queue := [], bits := [], maxSets := 2 }
        (List.replicate 2400 false) =
        (ProdAct.work true,
          { queue := save_to_file [] (get_hotbits (List.replicate 2400 false))
            bits := hotbitsRest (List.replicate 2400 false), maxSets := 2 }) := by
      simp only [producer_step, count_sets, save_to_file, List.nil_append,
        List.length_replicate, List.length_nil]
      norm_num
    exact (producer_backpressure _ _).2.2 _ _ hstep
      (by simp only [count_sets, save_to_file, List.nil_append, List.length_nil,
        List.length_singleton]; omega)

/-- C9: `sample(seq, k)` is exactly: draw `k` indices with replacement via
`choices` over `range(len(seq))`, sort them, and index `seq` at them;
and with an all-zero pool and `k = 2` the two drawn indices coincide, so
the result `[10, 10]` holds a duplicate — distinctness is not
guaranteed. -/
theorem sample_is_sorted_choices_with_duplicates :
    (∀ (α : Type) (fuel : Nat) (seq : List α) (k : Nat) (s : QR),
      sample fuel seq k s =
        match choices fuel (List.range seq.length) k s with
        | .error e => .error e
        | .ok (idxs, s') =>
          match indexAll seq (List.insertionSort (fun i j => i ≤ j) idxs) with
          | some xs => .ok (xs, s')
          | none => .error .indexError) ∧
    (sample 3 [10, 20] 2 { queue := [], bits := [false, false, false, false], picks := [] } =
      .ok ([10, 10], { queue := [], bits := [], picks := [] }) ∧
    2 ≤ List.count 10 [10, 10]) :=
  ⟨fun _ _ _ _ _ => rfl, rfl, by decide⟩

/-- C10: the constructor immediately dequeues, decodes, and deletes one
entropy set before any extraction; with an empty storage directory the
constructor itself fails with `PoolExhausted`. -/
theorem constructor_loads_first_set (queue : List (List Nat)) (picks : List Nat) :
    (mkQuantumRandom queue picks = .error .poolExhausted ↔ queue = []) ∧
    (queue ≠ [] →
      mkQuantumRandom queue picks =
        .ok { queue := queue.eraseIdx (picks.headD 0 % queue.length)
              bits := decodeSet (queue.getD (picks.headD 0 % queue.length) [])
              picks := picks.tail }) := by
  constructor
  · exact load_next_file_error_iff _
  · intro h
    have hok := load_next_file_ok { queue := queue, bits := [], picks := picks } h
    simpa using hok

/-- C10 witness: the singleton directory `[[5, 10]]`. -/
theorem constructor_loads_first_set_witness :
    mkQuantumRandom [[5, 10]] [] =
      .ok { queue := ([[5, 10]] : List (List Nat)).eraseIdx
              (([] : List Nat).headD 0 % [[5, 10]].length)
            bits := decodeSet ([[5, 10]].getD (([] : List Nat).headD 0 % [[5, 10]].length) [])
            picks := ([] : List Nat).tail } :=
  (constructor_loads_first_set [[5, 10]] []).2 (by simp)

end FQRG
